import Mathlib

/-!
Shallow embedding of the Lightning-Network-Simulator core (`src/graph.py`).

The Python graph is a dict mapping node ids to dicts of peer ids and directed
channel balances.  Dicts are modelled as association lists that preserve
insertion order: assignment updates the first occurrence of a key or appends a
new entry at the end, deletion removes the first occurrence, and lookup reads
the first occurrence.  Python dict states always have unique keys; where a
proof needs that fact it appears as an explicit `Nodup` hypothesis.

Python exceptions are modelled by returning the error kind together with the
graph state at the moment of the raise, so partial mutation before an
exception is observable, exactly as in Python.
-/

namespace LNSim

/-- Dict lookup: first entry whose key matches, `none` when absent. -/
def lookp {β : Type} : List (String × β) → String → Option β
  | [], _ => none
  | (k, x) :: rest, p => if k = p then some x else lookp rest p

/-- Dict assignment `d[k] = x`: replaces the first entry for `k`, or appends
`(k, x)` at the end when `k` is absent (Python insertion order). -/
def setk {β : Type} : List (String × β) → String → β → List (String × β)
  | [], k, x => [(k, x)]
  | (k', y) :: rest, k, x =>
    if k' = k then (k, x) :: rest else (k', y) :: setk rest k x

/-- Dict deletion `del d[k]`: removes the first entry for `k` (no-op when
absent; every call site in the source has checked presence or is modelled
with an explicit error branch). -/
def delk {β : Type} : List (String × β) → String → List (String × β)
  | [], _ => []
  | (k', y) :: rest, k =>
    if k' = k then rest else (k', y) :: delk rest k

/-- Channel map of one node: peer id to directed outbound balance. -/
abbrev Chans := List (String × Int)

/-- The graph: node id to channel map (`Graph.graph` in the source). -/
abbrev Graph := List (String × Chans)

/-- In-place update of the channel map of node `u` (`self[u]` mutation). -/
def gUpdate (g : Graph) (u : String) (f : Chans → Chans) : Graph :=
  match g with
  | [] => []
  | (k, cs) :: rest =>
    if k = u then (k, f cs) :: rest else (k, cs) :: gUpdate rest u f

/-- Directed balance `graph[u][v]`, `none` when node or channel is absent. -/
def bal (g : Graph) (u v : String) : Option Int :=
  (lookp g u).bind fun cs => lookp cs v

/-- The node ids of the graph, in insertion order. -/
def keys (g : Graph) : List String := g.map Prod.fst

/-- `Graph(nodes)`: every node starts with an empty channel map. -/
def mkGraph (ns : List String) : Graph := ns.map fun n => (n, [])

/-- Error kinds of the source's raised exceptions (spec taxonomy §7), plus
`KeyError` for the raw dict `KeyError` raises. -/
inductive Err : Type
  | UnknownNode
  | SelfChannel
  | NegativeAmount
  | ChannelExists
  | ChannelNotOpen
  | InsufficientFunds
  | KeyError
deriving DecidableEq, Repr

/-- `TxStatus` from `src/utils.py`. -/
inductive TxStatus : Type
  | SUCCESS
  | INSUFFICIENT_FUNDS
  | UNREACHABLE
deriving DecidableEq, Repr

/-- `TxData` from `src/utils.py`. -/
structure TxData : Type where
  path : List String
  sender : String
  receiver : String
  amount : Int
  hops : Nat
  status : TxStatus
deriving DecidableEq, Repr

/-- `INFINITY = UINT64_MAX` from `src/graph.py`. -/
def INFINITY : Nat := 0xFFFFFFFFFFFFFFFF

/-- `Graph.open_channel`: validation in source order, then
`self[u][v] = x; self[v][u] = y`.  Errors leave the graph untouched because
every check precedes the first mutation. -/
def open_channel (g : Graph) (u v : String) (x y : Int) : Option Err × Graph :=
  if (lookp g u).isNone ∨ (lookp g v).isNone then (some .UnknownNode, g)
  else if u = v then (some .SelfChannel, g)
  else if x < 0 ∨ y < 0 then (some .NegativeAmount, g)
  else if (bal g u v).isSome then (some .ChannelExists, g)
  else (none, gUpdate (gUpdate g u fun cs => setk cs v x) v fun cs => setk cs u y)

/-- `Graph.close_channel`: validation, then `del self[u][v]; del self[v][u]`.
The second `del` re-reads the already mutated graph; when `graph[v][u]` is
absent it raises `KeyError` with the first deletion already applied. -/
def close_channel (g : Graph) (u v : String) : Option Err × Graph :=
  if (lookp g u).isNone ∨ (lookp g v).isNone then (some .UnknownNode, g)
  else
    match bal g u v with
    | none => (some .ChannelNotOpen, g)
    | some _ =>
      match bal (gUpdate g u fun cs => delk cs v) v u with
      | none => (some .KeyError, gUpdate g u fun cs => delk cs v)
      | some _ =>
        (none, gUpdate (gUpdate g u fun cs => delk cs v) v fun cs => delk cs u)

/-- `Graph.transfer`: validation in source order, then
`self[u][v] -= amount; self[v][u] += amount`.  The `+=` re-reads the graph
after the `-=`; when `graph[v][u]` is absent it raises `KeyError` with the
debit already applied. -/
def transfer (g : Graph) (u v : String) (amount : Int) : Option Err × Graph :=
  if (lookp g u).isNone ∨ (lookp g v).isNone then (some .UnknownNode, g)
  else if amount < 0 then (some .NegativeAmount, g)
  else
    match bal g u v with
    | none => (some .ChannelNotOpen, g)
    | some b =>
      if amount > b then (some .InsufficientFunds, g)
      else
        match bal (gUpdate g u fun cs => setk cs v (b - amount)) v u with
        | none => (some .KeyError, gUpdate g u fun cs => setk cs v (b - amount))
        | some c =>
          (none,
            gUpdate (gUpdate g u fun cs => setk cs v (b - amount)) v
              fun cs => setk cs u (c + amount))

/-- `Graph.reset`: every existing node's channel map becomes empty. -/
def reset (g : Graph) : Graph := g.map fun p => (p.1, [])

/-- `Graph.get_balance`: sum of a node's outbound balances (`none` models the
`KeyError` on an unknown node). -/
def get_balance (g : Graph) (n : String) : Option Int :=
  (lookp g n).map fun cs => (cs.map Prod.snd).sum

/-- `Graph.edgecost`: 1 when `graph[u][v]` exists, else `INFINITY`. -/
def edgecost (g : Graph) (u v : String) : Nat :=
  match bal g u v with
  | none => INFINITY
  | some _ => 1

/-- Tentative distance read `dist[u]` (call sites only read keys present in
`dist`, where the default is irrelevant). -/
def distOf (dist : List (String × Nat)) (u : String) : Nat :=
  (lookp dist u).getD INFINITY

/-- Predecessor read `prev.get(p)`: `none` both for an absent key and for a
stored `None`, as in Python. -/
def getPrev (prev : List (String × Option String)) (p : String) : Option String :=
  (lookp prev p).getD none

/-- `min(unmarked, key=dist.__getitem__)`: first element of minimal key in
iteration order (the source's set iteration order is unspecified; the node
list order fixes one admissible order). -/
def argmin (d : String → Nat) : List String → String → String
  | [], b => b
  | x :: xs, b => argmin d xs (if d x < d b then x else b)

/-- The relaxation loop `for v in neighbours & unmarked: ...` over the channel
list of the selected node `u`. -/
def relax (g : Graph) (u : String) (un : List String) :
    Chans → List (String × Nat) → List (String × Option String) →
      List (String × Nat) × List (String × Option String)
  | [], dist, prev => (dist, prev)
  | (v, _) :: rest, dist, prev =>
    if v ∈ un then
      let alt := distOf dist u + edgecost g u v
      if alt < distOf dist v then
        relax g u un rest (setk dist v alt) (setk prev v (some u))
      else relax g u un rest dist prev
    else relax g u un rest dist prev

/-- The `while unmarked:` loop of `Graph.dijkstra`.  Each iteration removes
exactly one element of `unmarked`, so fuel `unmarked.length` runs the loop to
its Python termination point. -/
def dloop (g : Graph) (dst : String) :
    Nat → List (String × Nat) → List (String × Option String) → List String →
      List (String × Nat) × List (String × Option String)
  | 0, dist, prev, _ => (dist, prev)
  | _ + 1, dist, prev, [] => (dist, prev)
  | fuel + 1, dist, prev, x :: xs =>
    let u := argmin (distOf dist) xs x
    let un := (x :: xs).erase u
    if u = dst then (dist, prev)
    else
      let dp := relax g u un ((lookp g u).getD []) dist prev
      dloop g dst fuel dp.1 dp.2 un

/-- Distance and predecessor maps at loop exit of `Graph.dijkstra`. -/
def dijkstraState (g : Graph) (src dst : String) :
    List (String × Nat) × List (String × Option String) :=
  dloop g dst (keys g).length (setk (g.map fun p => (p.1, INFINITY)) src 0)
    (g.map fun p => (p.1, none)) (keys g)

/-- The path-reconstruction loop `while pred is not None:` of `Graph.dijkstra`.
Predecessor chains strictly decrease the distance, so fuel `prev.length + 1`
runs the loop to its Python termination point. -/
def buildPath (prev : List (String × Option String)) : Nat → String → List String
  | 0, p => [p]
  | fuel + 1, p =>
    match getPrev prev p with
    | none => [p]
    | some q => buildPath prev fuel q ++ [p]

/-- `Graph.dijkstra`: the final `dist[dst]` raises `KeyError` when `dst` is
not a key of `dist`. -/
def dijkstra (g : Graph) (src dst : String) : Except Err (List String × Nat) :=
  match lookp (dijkstraState g src dst).1 dst with
  | none => .error .KeyError
  | some c =>
    .ok (buildPath (dijkstraState g src dst).2 ((dijkstraState g src dst).2.length + 1) dst, c)

/-- The look-ahead check `any(self[u][v] < amount for (u, v) in pairwise(path))`
of `Graph.send`; a missing edge raises `KeyError` (short-circuit order as in
Python's `any`). -/
def liqCheck (g : Graph) (amount : Int) : List String → Except Err Bool
  | [] => .ok false
  | [_] => .ok false
  | u :: v :: rest =>
    match bal g u v with
    | none => .error .KeyError
    | some b => if b < amount then .ok true else liqCheck g amount (v :: rest)

/-- The commit loop `for u, v in pairwise(path): self.transfer(u, v, amount)`
of `Graph.send`; a raising transfer aborts the loop with the partial state. -/
def sendLoop (g : Graph) (amount : Int) : List String → Option Err × Graph
  | [] => (none, g)
  | [_] => (none, g)
  | u :: v :: rest =>
    match transfer g u v amount with
    | (some e, g1) => (some e, g1)
    | (none, g1) => sendLoop g1 amount (v :: rest)

/-- `Graph.send`: route, look-ahead liquidity check, then hop-by-hop commit. -/
def send (g : Graph) (src dst : String) (amount : Int) : Except Err TxData × Graph :=
  match dijkstra g src dst with
  | .error e => (.error e, g)
  | .ok (path, cost) =>
    if INFINITY ≤ cost then (.ok ⟨path, src, dst, 0, 0, .UNREACHABLE⟩, g)
    else
      match liqCheck g amount path with
      | .error e => (.error e, g)
      | .ok true => (.ok ⟨path, src, dst, 0, path.length - 1, .INSUFFICIENT_FUNDS⟩, g)
      | .ok false =>
        match sendLoop g amount path with
        | (some e, g1) => (.error e, g1)
        | (none, g1) => (.ok ⟨path, src, dst, amount, path.length - 1, .SUCCESS⟩, g1)

/-- `Graph.max_sendable`: minimum directed balance along the shortest path
(`min` of an empty sequence and a missing edge both raise). -/
def max_sendable (g : Graph) (src dst : String) : Except Err Int :=
  match dijkstra g src dst with
  | .error e => .error e
  | .ok (path, _) =>
    match (List.zip path path.tail).mapM (fun p => bal g p.1 p.2) with
    | none => .error .KeyError
    | some [] => .error .KeyError
    | some (b :: bs) => .ok (bs.foldl min b)

end LNSim

namespace LNSim

/-! ### Basic lemmas about the dict model -/

theorem lookp_setk {β : Type} (l : List (String × β)) (k : String) (x : β) (p : String) :
    lookp (setk l k x) p = if p = k then some x else lookp l p := by
  induction l with
  | nil =>
    rcases eq_or_ne p k with h | h
    · subst h; simp [setk, lookp]
    · simp [setk, lookp, h, Ne.symm h]
  | cons hd tl ih =>
    obtain ⟨k', y⟩ := hd
    rcases eq_or_ne k' k with hk | hk
    · subst hk
      rcases eq_or_ne p k' with hp | hp
      · subst hp; simp [setk, lookp]
      · simp [setk, lookp, hp, Ne.symm hp]
    · rcases eq_or_ne k' p with hp | hp
      · subst hp
        simp [setk, lookp, hk]
      · simp [setk, lookp, hk, hp, ih]

theorem lookp_delk_ne {β : Type} (l : List (String × β)) (k p : String) (h : p ≠ k) :
    lookp (delk l k) p = lookp l p := by
  induction l with
  | nil => simp [delk]
  | cons hd tl ih =>
    obtain ⟨k', y⟩ := hd
    rcases eq_or_ne k' k with hk | hk
    · subst hk
      simp [delk, lookp, Ne.symm h]
    · simp [delk, lookp, hk, ih]

theorem lookp_isSome_iff_mem {β : Type} (l : List (String × β)) (p : String) :
    (lookp l p).isSome ↔ p ∈ l.map Prod.fst := by
  induction l with
  | nil => simp [lookp]
  | cons hd tl ih =>
    obtain ⟨k, x⟩ := hd
    rcases eq_or_ne k p with h | h
    · simp [lookp, h]
    · simp [lookp, h, Ne.symm h, ih]

theorem lookp_delk_self {β : Type} (l : List (String × β)) (k : String)
    (hnd : (l.map Prod.fst).Nodup) : lookp (delk l k) k = none := by
  induction l with
  | nil => simp [delk, lookp]
  | cons hd tl ih =>
    obtain ⟨k', y⟩ := hd
    simp only [List.map_cons, List.nodup_cons] at hnd
    rcases eq_or_ne k' k with hk | hk
    · subst hk
      have hns : ¬ (lookp tl k').isSome := by
        rw [lookp_isSome_iff_mem]; exact hnd.1
      simpa [delk, Option.not_isSome_iff_eq_none] using
        Option.not_isSome_iff_eq_none.mp hns
    · simp [delk, lookp, hk, ih hnd.2]

theorem lookp_gUpdate (g : Graph) (u : String) (f : Chans → Chans) (p : String) :
    lookp (gUpdate g u f) p = if p = u then (lookp g u).map f else lookp g p := by
  induction g with
  | nil =>
    rcases eq_or_ne p u with h | h
    · subst h; simp [gUpdate, lookp]
    · simp [gUpdate, lookp, h]
  | cons hd tl ih =>
    obtain ⟨k, cs⟩ := hd
    rcases eq_or_ne k u with hk | hk
    · subst hk
      rcases eq_or_ne p k with hp | hp
      · subst hp; simp [gUpdate, lookp]
      · simp [gUpdate, lookp, hp, Ne.symm hp]
    · rcases eq_or_ne k p with hp | hp
      · subst hp
        simp [gUpdate, lookp, hk]
      · simp [gUpdate, lookp, hk, hp, ih]

theorem lookp_mkGraph (ns : List String) (u : String) :
    lookp (mkGraph ns) u = if u ∈ ns then some [] else none := by
  induction ns with
  | nil => simp [mkGraph, lookp]
  | cons hd tl ih =>
    rcases eq_or_ne hd u with h | h
    · simp [mkGraph, lookp, h]
    · simp only [mkGraph, List.map_cons, lookp] at ih ⊢
      simp [h, Ne.symm h, ih]

theorem sum_setk (cs : Chans) (v : String) (b x : Int) (h : lookp cs v = some b) :
    ((setk cs v x).map Prod.snd).sum = (cs.map Prod.snd).sum - b + x := by
  induction cs with
  | nil => simp [lookp] at h
  | cons hd tl ih =>
    obtain ⟨k, y⟩ := hd
    rcases eq_or_ne k v with hk | hk
    · subst hk
      simp only [lookp] at h
      simp only [if_pos trivial, Option.some.injEq] at h
      subst h
      simp only [setk, if_pos rfl, if_pos trivial, List.map_cons, List.sum_cons]
      ring
    · simp only [lookp, if_neg hk] at h
      simp only [setk, if_neg hk, List.map_cons, List.sum_cons, ih h]
      ring

theorem keys_gUpdate (g : Graph) (u : String) (f : Chans → Chans) :
    keys (gUpdate g u f) = keys g := by
  induction g with
  | nil => simp [gUpdate, keys]
  | cons hd tl ih =>
    obtain ⟨k, cs⟩ := hd
    rcases eq_or_ne k u with h | h
    · simp [gUpdate, keys, h]
    · simp only [gUpdate, if_neg h, keys, List.map_cons] at ih ⊢
      simp [ih]

theorem bal_gUpdate (g : Graph) (u : String) (f : Chans → Chans) (p q : String) :
    bal (gUpdate g u f) p q =
      if p = u then ((lookp g u).map f).bind (fun cs => lookp cs q)
      else bal g p q := by
  simp only [bal, lookp_gUpdate]
  rcases eq_or_ne p u with h | h <;> simp [h]

theorem bal_mkGraph (ns : List String) (u v : String) : bal (mkGraph ns) u v = none := by
  simp only [bal, lookp_mkGraph]
  by_cases h : u ∈ ns <;> simp [h, lookp]

end LNSim

namespace LNSim

/-! ### Atomicity of `send` on failure statuses (C1) and negative amounts (C2) -/

theorem buildPath_ne_nil (prev : List (String × Option String)) (fuel : Nat) (p : String) :
    buildPath prev fuel p ≠ [] := by
  cases fuel with
  | zero => simp [buildPath]
  | succ n =>
    simp only [buildPath]
    cases getPrev prev p with
    | none => simp
    | some q => simp

theorem send_snd_eq_of_not_success (g : Graph) (s d : String) (a : Int) (tx : TxData)
    (h : (send g s d a).1 = .ok tx) (hst : tx.status ≠ .SUCCESS) :
    (send g s d a).2 = g := by
  unfold send at h ⊢
  cases hdi : dijkstra g s d with
  | error e => simp [hdi] at h
  | ok pc =>
    obtain ⟨p, c⟩ := pc
    simp only [hdi] at h ⊢
    by_cases hc : INFINITY ≤ c
    · simp [hc]
    · simp only [if_neg hc] at h ⊢
      cases hlq : liqCheck g a p with
      | error e => simp [hlq] at h
      | ok lb =>
        cases lb
        · simp only [hlq] at h ⊢
          cases hsl : sendLoop g a p with
          | mk oe g1 =>
            cases oe with
            | none =>
              simp only [hsl, Except.ok.injEq] at h
              subst h
              simp at hst
            | some e => simp [hsl] at h
        · simp [hlq]

/-- C1: for every graph state and every `src`, `dst`, `amount`: if `send`
returns a `TxData` with status `UNREACHABLE` or `INSUFFICIENT_FUNDS`, then
every directed channel balance in the graph after the call equals its value
before the call. -/
theorem C1_send_failure_preserves_balances (g : Graph) (s d : String) (a : Int)
    (tx : TxData) (h : (send g s d a).1 = .ok tx)
    (hst : tx.status = .UNREACHABLE ∨ tx.status = .INSUFFICIENT_FUNDS) :
    ∀ u v, bal (send g s d a).2 u v = bal g u v := by
  have hns : tx.status ≠ .SUCCESS := by
    rcases hst with h1 | h1 <;> simp [h1]
  intro u v
  rw [send_snd_eq_of_not_success g s d a tx h hns]

/-- C1 witness: a concrete unreachable send, with the balance equality read
off at a concrete channel. -/
theorem C1_witness :
    (send (mkGraph ["a", "b"]) "a" "b" 5).1 =
      .ok ⟨["b"], "a", "b", 0, 0, .UNREACHABLE⟩ ∧
    bal (send (mkGraph ["a", "b"]) "a" "b" 5).2 "a" "b" =
      bal (mkGraph ["a", "b"]) "a" "b" := by
  constructor
  · rfl
  · exact C1_send_failure_preserves_balances (mkGraph ["a", "b"]) "a" "b" 5
      ⟨["b"], "a", "b", 0, 0, .UNREACHABLE⟩ rfl (Or.inl rfl) "a" "b"


theorem transfer_neg (g : Graph) (u v : String) (a : Int) (ha : a < 0) :
    (transfer g u v a).1.isSome ∧ (transfer g u v a).2 = g := by
  unfold transfer
  by_cases hun : (lookp g u).isNone ∨ (lookp g v).isNone
  · rw [if_pos hun]
    exact ⟨rfl, rfl⟩
  · rw [if_neg hun, if_pos ha]
    exact ⟨rfl, rfl⟩

theorem sendLoop_neg (g : Graph) (a : Int) (p : List String) (ha : a < 0) :
    (sendLoop g a p).2 = g ∧ ((sendLoop g a p).1 = none → p.length ≤ 1) := by
  match p with
  | [] => simp [sendLoop]
  | [x] => simp [sendLoop]
  | u :: v :: rest =>
    obtain ⟨h1, h2⟩ := transfer_neg g u v a ha
    obtain ⟨e, he⟩ := Option.isSome_iff_exists.mp h1
    have ht : transfer g u v a = (some e, g) := by
      rw [Prod.ext_iff]; exact ⟨he, h2⟩
    simp [sendLoop, ht]

theorem dijkstra_ok_path_ne_nil (g : Graph) (s d : String) (p : List String) (c : Nat)
    (h : dijkstra g s d = .ok (p, c)) : p ≠ [] := by
  unfold dijkstra at h
  split at h
  · exact absurd h (by simp)
  · simp only [Except.ok.injEq, Prod.mk.injEq] at h
    rw [← h.1]
    exact buildPath_ne_nil _ _ _

/-- C2 counterexample: with a negative amount and an unreachable destination,
`send` computes the path and returns a `TxData` with status `UNREACHABLE` —
it does not raise a validation error before path computation. -/
theorem C2_counterexample :
    (send (mkGraph ["a", "b"]) "a" "b" (-1)).1 =
      .ok ⟨["b"], "a", "b", 0, 0, .UNREACHABLE⟩ := rfl

/-- C2 amended: `send` does not validate the amount before path computation.
With a negative amount it first routes; it can return `UNREACHABLE` (and, when
a balance on the chosen path lies below the amount, `INSUFFICIENT_FUNDS`), it
returns `SUCCESS` only for a trivial single-node zero-hop path, and otherwise
the first hop's `transfer` raises the `NegativeAmount` validation error before
any mutation.  In every case no balance in the graph changes. -/
theorem C2_amended_send_negative (g : Graph) (s d : String) (a : Int) (ha : a < 0) :
    (send g s d a).2 = g ∧
    ∀ tx, (send g s d a).1 = .ok tx → tx.status = .SUCCESS →
      tx.hops = 0 ∧ tx.path.length = 1 := by
  unfold send
  split
  · exact ⟨rfl, by intro tx htx; exact absurd htx (by simp)⟩
  next p c heq =>
    have hp : p ≠ [] := dijkstra_ok_path_ne_nil g s d p c heq
    split
    · refine ⟨rfl, ?_⟩
      intro tx htx hts
      have htx2 : (⟨p, s, d, 0, 0, .UNREACHABLE⟩ : TxData) = tx := Except.ok.inj htx
      rw [← htx2] at hts
      exact TxStatus.noConfusion hts
    · split
      · exact ⟨rfl, by intro tx htx; exact absurd htx (by simp)⟩
      · refine ⟨rfl, ?_⟩
        intro tx htx hts
        have htx2 : (⟨p, s, d, 0, p.length - 1, .INSUFFICIENT_FUNDS⟩ : TxData) = tx :=
          Except.ok.inj htx
        rw [← htx2] at hts
        exact TxStatus.noConfusion hts
      · obtain ⟨hsl2, hsl1⟩ := sendLoop_neg g a p ha
        split
        next e g1 hsl =>
          rw [hsl] at hsl2
          exact ⟨hsl2, by intro tx htx; exact absurd htx (by simp)⟩
        next g1 hsl =>
          rw [hsl] at hsl2 hsl1
          have hg : g1 = g := hsl2
          subst hg
          refine ⟨rfl, ?_⟩
          intro tx htx hts
          have htx2 : (⟨p, s, d, a, p.length - 1, .SUCCESS⟩ : TxData) = tx :=
            Except.ok.inj htx
          have hl : p.length ≤ 1 := hsl1 rfl
          have hnz : p.length ≠ 0 := fun h => hp (List.length_eq_zero.mp h)
          rw [← htx2]
          constructor
          · show p.length - 1 = 0
            omega
          · show p.length = 1
            omega

/-- C2 witness for the amended claim: concrete negative-amount send leaves the
graph untouched. -/
theorem C2_amended_witness :
    (send (mkGraph ["a", "b"]) "a" "b" (-2)).2 = mkGraph ["a", "b"] :=
  (C2_amended_send_negative (mkGraph ["a", "b"]) "a" "b" (-2) (by decide)).1

end LNSim

namespace LNSim

/-! ### `open_channel` error taxonomy (C8) and `transfer` conservation (C6) -/

theorem lookp_isNone_iff {β : Type} (l : List (String × β)) (p : String) :
    (lookp l p).isNone ↔ p ∉ l.map Prod.fst := by
  rw [← lookp_isSome_iff_mem]
  cases lookp l p <;> simp

/-- C8: `open_channel(u, v, x, y)` fails with a distinct error kind exactly
under the source's conditions, checked in order (`UnknownNode`, `SelfChannel`,
`NegativeAmount`, `ChannelExists`); otherwise it succeeds and creates
`graph[u][v] = x` and `graph[v][u] = y`; on any failure the graph is
unchanged. -/
theorem C8_open_channel_spec (g : Graph) (u v : String) (x y : Int) :
    (¬ (u ∈ keys g ∧ v ∈ keys g) → open_channel g u v x y = (some .UnknownNode, g)) ∧
    (u ∈ keys g → v ∈ keys g → u = v → open_channel g u v x y = (some .SelfChannel, g)) ∧
    (u ∈ keys g → v ∈ keys g → u ≠ v → (x < 0 ∨ y < 0) →
      open_channel g u v x y = (some .NegativeAmount, g)) ∧
    (u ∈ keys g → v ∈ keys g → u ≠ v → ¬ (x < 0 ∨ y < 0) → (bal g u v).isSome →
      open_channel g u v x y = (some .ChannelExists, g)) ∧
    (u ∈ keys g → v ∈ keys g → u ≠ v → ¬ (x < 0 ∨ y < 0) → ¬ (bal g u v).isSome →
      (open_channel g u v x y).1 = none ∧
      bal (open_channel g u v x y).2 u v = some x ∧
      bal (open_channel g u v x y).2 v u = some y) ∧
    (∀ e, (open_channel g u v x y).1 = some e → (open_channel g u v x y).2 = g) := by
  have hiff : ((lookp g u).isNone ∨ (lookp g v).isNone) ↔ ¬ (u ∈ keys g ∧ v ∈ keys g) := by
    rw [not_and_or, lookp_isNone_iff, lookp_isNone_iff]
    exact Iff.rfl
  refine ⟨?_, ?_, ?_, ?_, ?_, ?_⟩
  · intro h
    unfold open_channel
    rw [if_pos (hiff.mpr h)]
  · intro hu hv he
    unfold open_channel
    rw [if_neg (fun hc => (hiff.mp hc) ⟨hu, hv⟩), if_pos he]
  · intro hu hv hne hneg
    unfold open_channel
    rw [if_neg (fun hc => (hiff.mp hc) ⟨hu, hv⟩), if_neg hne, if_pos hneg]
  · intro hu hv hne hneg hex
    unfold open_channel
    rw [if_neg (fun hc => (hiff.mp hc) ⟨hu, hv⟩), if_neg hne, if_neg hneg, if_pos hex]
  · intro hu hv hne hneg hnex
    obtain ⟨cs, hcs⟩ := Option.isSome_iff_exists.mp ((lookp_isSome_iff_mem g u).mpr hu)
    obtain ⟨cs2, hcs2⟩ := Option.isSome_iff_exists.mp ((lookp_isSome_iff_mem g v).mpr hv)
    unfold open_channel
    rw [if_neg (fun hc => (hiff.mp hc) ⟨hu, hv⟩), if_neg hne, if_neg hneg, if_neg hnex]
    refine ⟨rfl, ?_, ?_⟩
    · simp [bal, lookp_gUpdate, hne, hcs, lookp_setk]
    · simp [bal, lookp_gUpdate, Ne.symm hne, hcs2, lookp_setk]
  · intro e he
    unfold open_channel at he ⊢
    split_ifs at he ⊢ <;> rfl

/-- C8 witness: a concrete successful open between two fresh nodes. -/
theorem C8_witness :
    (open_channel (mkGraph ["a", "b"]) "a" "b" 3 4).1 = none ∧
    bal (open_channel (mkGraph ["a", "b"]) "a" "b" 3 4).2 "a" "b" = some 3 ∧
    bal (open_channel (mkGraph ["a", "b"]) "a" "b" 3 4).2 "b" "a" = some 4 :=
  (C8_open_channel_spec (mkGraph ["a", "b"]) "a" "b" 3 4).2.2.2.2.1
    (by decide) (by decide) (by decide) (by decide) (by decide)

/-- C6: with an open channel between `u` and `v` (both directed entries
present) and `0 ≤ amount ≤ balance(u→v)`, `transfer` succeeds and the channel
total `graph[u][v] + graph[v][u]` is conserved. -/
theorem C6_transfer_conserves (g : Graph) (u v : String) (a b c : Int)
    (hu : u ∈ keys g) (hv : v ∈ keys g)
    (huv : bal g u v = some b) (hvu : bal g v u = some c)
    (h0 : 0 ≤ a) (hab : a ≤ b) :
    (transfer g u v a).1 = none ∧
    ∃ q r, bal (transfer g u v a).2 u v = some q ∧
      bal (transfer g u v a).2 v u = some r ∧ q + r = b + c := by
  have h1 : ¬ ((lookp g u).isNone ∨ (lookp g v).isNone) := by
    rw [lookp_isNone_iff, lookp_isNone_iff]
    push_neg
    exact ⟨hu, hv⟩
  have hna : ¬ a < 0 := not_lt.mpr h0
  obtain ⟨cs, hcs⟩ := Option.isSome_iff_exists.mp ((lookp_isSome_iff_mem g u).mpr hu)
  unfold transfer
  rw [if_neg h1, if_neg hna]
  split
  next heq => rw [huv] at heq; cases heq
  next b' heq =>
    rw [huv] at heq
    obtain rfl : b = b' := Option.some.inj heq
    have hgt : ¬ a > b := not_lt.mpr hab
    rw [if_neg hgt]
    rcases eq_or_ne u v with rfl | hne
    · have hcb : c = b := by
        rw [huv] at hvu
        exact (Option.some.inj hvu).symm
      have hb1 : bal (gUpdate g u fun cs => setk cs u (b - a)) u u = some (b - a) := by
        simp [bal, lookp_gUpdate, hcs, lookp_setk]
      split
      next heq2 => rw [hb1] at heq2; cases heq2
      next c' heq2 =>
        rw [hb1] at heq2
        obtain rfl : b - a = c' := Option.some.inj heq2
        refine ⟨rfl, b - a + a, b - a + a, ?_, ?_, by omega⟩
        · simp [bal, lookp_gUpdate, hcs, lookp_setk]
        · simp [bal, lookp_gUpdate, hcs, lookp_setk]
    · obtain ⟨cs2, hcs2⟩ := Option.isSome_iff_exists.mp ((lookp_isSome_iff_mem g v).mpr hv)
      have hlu : lookp cs2 u = some c := by
        rw [bal, hcs2] at hvu
        simpa using hvu
      have hb1 : bal (gUpdate g u fun cs => setk cs v (b - a)) v u = some c := by
        simp [bal, lookp_gUpdate, Ne.symm hne, hcs2, hlu]
      split
      next heq2 => rw [hb1] at heq2; cases heq2
      next c' heq2 =>
        rw [hb1] at heq2
        obtain rfl : c = c' := Option.some.inj heq2
        refine ⟨rfl, b - a, c + a, ?_, ?_, by omega⟩
        · simp [bal, lookp_gUpdate, hne, hcs, lookp_setk]
        · simp [bal, lookp_gUpdate, Ne.symm hne, hcs2, lookp_setk]

/-- C6 witness: a concrete in-range transfer conserving the channel total. -/
theorem C6_witness :
    (transfer [("a", [("b", 5)]), ("b", [("a", 0)])] "a" "b" 2).1 = none ∧
    ∃ q r, bal (transfer [("a", [("b", 5)]), ("b", [("a", 0)])] "a" "b" 2).2 "a" "b" = some q ∧
      bal (transfer [("a", [("b", 5)]), ("b", [("a", 0)])] "a" "b" 2).2 "b" "a" = some r ∧
      q + r = 5 + 0 :=
  C6_transfer_conserves [("a", [("b", 5)]), ("b", [("a", 0)])] "a" "b" 2 5 0
    (by decide) (by decide) (by decide) (by decide) (by decide) (by decide)

end LNSim

namespace LNSim

/-! ### Channel-existence symmetry (C5) -/

/-- Symmetry invariant: a channel entry `graph[u][v]` exists iff `graph[v][u]`
exists (symmetry of existence, not of balance value). -/
def Sym (g : Graph) : Prop := ∀ u v, (bal g u v).isSome ↔ (bal g v u).isSome

/-- Well-formedness of a Python dict state: outer and inner key lists have no
duplicates. -/
def WF (g : Graph) : Prop :=
  (g.map Prod.fst).Nodup ∧ ∀ p ∈ g, (p.2.map Prod.fst).Nodup

theorem lookp_mem {β : Type} (l : List (String × β)) (p : String) (x : β)
    (h : lookp l p = some x) : (p, x) ∈ l := by
  induction l with
  | nil => simp [lookp] at h
  | cons hd tl ih =>
    obtain ⟨k, y⟩ := hd
    rcases eq_or_ne k p with rfl | hk
    · simp only [lookp] at h
      simp only [if_pos trivial, Option.some.injEq] at h
      subst h
      exact List.mem_cons_self _ _
    · simp only [lookp, if_neg hk] at h
      exact List.mem_cons_of_mem _ (ih h)

theorem bal_gUpdate_setk (g : Graph) (u v : String) (x : Int) (cs : Chans)
    (hcs : lookp g u = some cs) (p q : String) :
    bal (gUpdate g u fun cs => setk cs v x) p q =
      if p = u then (if q = v then some x else bal g u q) else bal g p q := by
  simp only [bal, lookp_gUpdate]
  rcases eq_or_ne p u with rfl | hp
  · simp [hcs, lookp_setk]
  · simp [hp]

theorem bal_gUpdate_delk (g : Graph) (u v : String) (cs : Chans)
    (hcs : lookp g u = some cs) (hnd : (cs.map Prod.fst).Nodup) (p q : String) :
    bal (gUpdate g u fun cs => delk cs v) p q =
      if p = u then (if q = v then none else bal g u q) else bal g p q := by
  simp only [bal, lookp_gUpdate]
  rcases eq_or_ne p u with rfl | hp
  · rcases eq_or_ne q v with rfl | hq
    · simp [hcs, lookp_delk_self cs q hnd]
    · simp [hcs, lookp_delk_ne cs v q hq, hq]
  · simp [hp]

theorem isSome_of_not_isNone {β : Type} (o : Option β) (h : o.isNone ≠ true) :
    ∃ x, o = some x := by
  cases o
  · simp at h
  · exact ⟨_, rfl⟩

theorem sym_of_pointwise (g g' : Graph)
    (h : ∀ p q, (bal g' p q).isSome = (bal g p q).isSome) (hS : Sym g) : Sym g' := by
  intro p q
  rw [h p q, h q p]
  exact hS p q

theorem sym_add (g g' : Graph) (u v : String) (hS : Sym g)
    (hw : ∀ p q, ((bal g' p q).isSome ↔
      (p = u ∧ q = v) ∨ (p = v ∧ q = u) ∨ (bal g p q).isSome)) : Sym g' := by
  intro p q
  rw [hw p q, hw q p]
  constructor
  · rintro (⟨rfl, rfl⟩ | ⟨rfl, rfl⟩ | hb)
    · exact Or.inr (Or.inl ⟨rfl, rfl⟩)
    · exact Or.inl ⟨rfl, rfl⟩
    · exact Or.inr (Or.inr ((hS p q).mp hb))
  · rintro (⟨rfl, rfl⟩ | ⟨rfl, rfl⟩ | hb)
    · exact Or.inr (Or.inl ⟨rfl, rfl⟩)
    · exact Or.inl ⟨rfl, rfl⟩
    · exact Or.inr (Or.inr ((hS q p).mp hb))

theorem sym_remove (g g' : Graph) (u v : String) (hS : Sym g)
    (hw : ∀ p q, ((bal g' p q).isSome ↔
      ¬ ((p = u ∧ q = v) ∨ (p = v ∧ q = u)) ∧ (bal g p q).isSome)) : Sym g' := by
  intro p q
  rw [hw p q, hw q p]
  constructor
  · rintro ⟨hn, hb⟩
    refine ⟨?_, (hS p q).mp hb⟩
    rintro (⟨rfl, rfl⟩ | ⟨rfl, rfl⟩)
    · exact hn (Or.inr ⟨rfl, rfl⟩)
    · exact hn (Or.inl ⟨rfl, rfl⟩)
  · rintro ⟨hn, hb⟩
    refine ⟨?_, (hS q p).mp hb⟩
    rintro (⟨rfl, rfl⟩ | ⟨rfl, rfl⟩)
    · exact hn (Or.inr ⟨rfl, rfl⟩)
    · exact hn (Or.inl ⟨rfl, rfl⟩)

theorem mkGraph_sym (ns : List String) : Sym (mkGraph ns) := by
  intro u v
  rw [bal_mkGraph, bal_mkGraph]

theorem lookp_reset (g : Graph) (p : String) :
    lookp (reset g) p = (lookp g p).map fun _ => ([] : Chans) := by
  induction g with
  | nil => simp [reset, lookp]
  | cons hd tl ih =>
    obtain ⟨k, cs⟩ := hd
    rcases eq_or_ne k p with rfl | hk
    · simp [reset, lookp]
    · simp only [reset, List.map_cons, lookp, if_neg hk] at ih ⊢
      exact ih

theorem reset_sym (g : Graph) : Sym (reset g) := by
  intro u v
  simp only [bal, lookp_reset]
  cases lookp g u <;> cases lookp g v <;> simp [lookp]

theorem open_channel_sym (g : Graph) (u v : String) (x y : Int) (hS : Sym g) :
    Sym (open_channel g u v x y).2 := by
  unfold open_channel
  split_ifs with h1 h2 h3 h4
  · exact hS
  · exact hS
  · exact hS
  · exact hS
  · push_neg at h1
    obtain ⟨cs, hcs⟩ := isSome_of_not_isNone (lookp g u) h1.1
    obtain ⟨cs2, hcs2⟩ := isSome_of_not_isNone (lookp g v) h1.2
    have hcs2' : lookp (gUpdate g u fun cs => setk cs v x) v = some cs2 := by
      rw [lookp_gUpdate, if_neg (Ne.symm h2)]
      exact hcs2
    have hbal1 := bal_gUpdate_setk g u v x cs hcs
    have hbal2 := bal_gUpdate_setk (gUpdate g u fun cs => setk cs v x) v u y cs2 hcs2'
    refine sym_add g _ u v hS ?_
    intro p q
    simp only [hbal2, hbal1]
    by_cases hpu : p = u <;> by_cases hpv : p = v <;> by_cases hqu : q = u <;>
      by_cases hqv : q = v <;>
      simp_all [bal]

theorem transfer_bal_isSome (g : Graph) (u v : String) (a : Int) (hS : Sym g) :
    ∀ p q, (bal (transfer g u v a).2 p q).isSome = (bal g p q).isSome := by
  intro p q
  unfold transfer
  split_ifs with h1 h2
  · rfl
  · rfl
  · split
    next heq => rfl
    next b heq =>
      split_ifs with h3
      · rfl
      · push_neg at h1
        obtain ⟨cs, hcs⟩ := isSome_of_not_isNone (lookp g u) h1.1
        have hbal1 := bal_gUpdate_setk g u v (b - a) cs hcs
        have huvS : (bal g u v).isSome := by rw [heq]; rfl
        split
        next heq2 =>
          exfalso
          rw [hbal1 v u] at heq2
          rcases eq_or_ne v u with rfl | hvu
          · simp at heq2
          · rw [if_neg hvu] at heq2
            have hvuS := (hS u v).mp huvS
            rw [heq2] at hvuS
            cases hvuS
        next c heq2 =>
          have hsome : (bal (gUpdate g u fun cs => setk cs v (b - a)) v u).isSome := by
            rw [heq2]; rfl
          have hcs2 : ∃ cs2, lookp (gUpdate g u fun cs => setk cs v (b - a)) v = some cs2 := by
            rw [bal] at hsome
            cases hl : lookp (gUpdate g u fun cs => setk cs v (b - a)) v
            · rw [hl] at hsome; simp at hsome
            · exact ⟨_, rfl⟩
          obtain ⟨cs2, hcs2⟩ := hcs2
          have hbal2 := bal_gUpdate_setk (gUpdate g u fun cs => setk cs v (b - a)) v u
            (c + a) cs2 hcs2
          simp only [hbal2, hbal1]
          have hvuS : (bal g v u).isSome := (hS u v).mp huvS
          by_cases hpu : p = u <;> by_cases hpv : p = v <;> by_cases hqu : q = u <;>
            by_cases hqv : q = v <;>
            simp_all [bal]

theorem transfer_sym (g : Graph) (u v : String) (a : Int) (hS : Sym g) :
    Sym (transfer g u v a).2 :=
  sym_of_pointwise g _ (transfer_bal_isSome g u v a hS) hS

end LNSim

namespace LNSim

theorem close_channel_sym (g : Graph) (u v : String) (hWF : WF g) (hS : Sym g) :
    Sym (close_channel g u v).2 := by
  unfold close_channel
  split_ifs with h1
  · exact hS
  · split
    next heq => exact hS
    next b0 heq =>
      push_neg at h1
      obtain ⟨cs, hcs⟩ := isSome_of_not_isNone (lookp g u) h1.1
      have hnd : (cs.map Prod.fst).Nodup := hWF.2 (u, cs) (lookp_mem g u cs hcs)
      have hbal1 := bal_gUpdate_delk g u v cs hcs hnd
      split
      next heq2 =>
        rcases eq_or_ne u v with rfl | hne
        · refine sym_remove g _ u u hS ?_
          intro p q
          simp only [hbal1]
          by_cases hpu : p = u <;> by_cases hqu : q = u <;> simp_all [bal]
        · exfalso
          rw [hbal1 v u, if_neg (Ne.symm hne)] at heq2
          have hvuS : (bal g v u).isSome := (hS u v).mp (by rw [heq]; rfl)
          rw [heq2] at hvuS
          cases hvuS
      next c0 heq2 =>
        have hne : u ≠ v := by
          rintro rfl
          rw [hbal1 u u, if_pos rfl, if_pos rfl] at heq2
          cases heq2
        obtain ⟨cs2, hcs2⟩ := isSome_of_not_isNone (lookp g v) h1.2
        have hnd2 : (cs2.map Prod.fst).Nodup := hWF.2 (v, cs2) (lookp_mem g v cs2 hcs2)
        have hcs2' : lookp (gUpdate g u fun cs => delk cs v) v = some cs2 := by
          rw [lookp_gUpdate, if_neg (Ne.symm hne)]
          exact hcs2
        have hbal2 := bal_gUpdate_delk (gUpdate g u fun cs => delk cs v) v u cs2 hcs2' hnd2
        refine sym_remove g _ u v hS ?_
        intro p q
        simp only [hbal2, hbal1]
        by_cases hpu : p = u <;> by_cases hpv : p = v <;> by_cases hqu : q = u <;>
          by_cases hqv : q = v <;> simp_all [bal]

theorem sendLoop_sym (a : Int) :
    ∀ (p : List String) (g : Graph), Sym g → Sym (sendLoop g a p).2 := by
  intro p
  induction p with
  | nil => intro g hS; exact hS
  | cons u rest ih =>
    intro g hS
    cases rest with
    | nil => exact hS
    | cons v rest2 =>
      cases ht : transfer g u v a with
      | mk oe g1 =>
        have h1 : ∀ x y, (bal g1 x y).isSome = (bal g x y).isSome := by
          intro x y
          have h2 := transfer_bal_isSome g u v a hS x y
          rw [ht] at h2
          exact h2
        have hS1 : Sym g1 := by
          intro x y
          rw [h1 x y, h1 y x]
          exact hS x y
        cases oe with
        | some e =>
          simp only [sendLoop]
          rw [ht]
          exact hS1
        | none =>
          simp only [sendLoop]
          rw [ht]
          exact ih g1 hS1

theorem send_sym (g : Graph) (s d : String) (a : Int) (hS : Sym g) :
    Sym (send g s d a).2 := by
  unfold send
  split
  · exact hS
  next p c heq =>
    split
    · exact hS
    · split
      · exact hS
      · exact hS
      · cases hsl : sendLoop g a p with
        | mk oe g1 =>
          have h2 := sendLoop_sym a p g hS
          rw [hsl] at h2
          cases oe with
          | some e => exact h2
          | none => exact h2

/-- C5: the channel-symmetry invariant — `graph[u][v]` exists iff
`graph[v][u]` exists — holds for a freshly constructed graph and is preserved
by every public operation (`open_channel`, `close_channel`, `transfer`,
`send`, `reset`), whether the operation succeeds or fails.  `WF` records that
Python dict key lists carry no duplicates. -/
theorem C5_symmetry_invariant :
    (∀ ns, Sym (mkGraph ns)) ∧
    (∀ g u v x y, Sym g → Sym (open_channel g u v x y).2) ∧
    (∀ g u v, WF g → Sym g → Sym (close_channel g u v).2) ∧
    (∀ g u v a, Sym g → Sym (transfer g u v a).2) ∧
    (∀ g s d a, Sym g → Sym (send g s d a).2) ∧
    (∀ g, Sym g → Sym (reset g)) :=
  ⟨mkGraph_sym, open_channel_sym, close_channel_sym, transfer_sym, send_sym,
    fun g _ => reset_sym g⟩

/-- C5 witness: concrete symmetric states threaded through each operation. -/
theorem C5_witness :
    Sym (open_channel (mkGraph ["a", "b"]) "a" "b" 5 7).2 ∧
    Sym (close_channel (open_channel (mkGraph ["a", "b"]) "a" "b" 5 7).2 "a" "b").2 ∧
    Sym (transfer (open_channel (mkGraph ["a", "b"]) "a" "b" 5 7).2 "a" "b" 1).2 ∧
    Sym (send (open_channel (mkGraph ["a", "b"]) "a" "b" 5 7).2 "a" "b" 1).2 ∧
    Sym (reset (mkGraph ["a", "b"])) := by
  have h0 : Sym (mkGraph ["a", "b"]) := C5_symmetry_invariant.1 ["a", "b"]
  have h1 : Sym (open_channel (mkGraph ["a", "b"]) "a" "b" 5 7).2 :=
    C5_symmetry_invariant.2.1 (mkGraph ["a", "b"]) "a" "b" 5 7 h0
  exact ⟨h1,
    C5_symmetry_invariant.2.2.1 _ "a" "b" ⟨by decide, by decide⟩ h1,
    C5_symmetry_invariant.2.2.2.1 _ "a" "b" 1 h1,
    C5_symmetry_invariant.2.2.2.2.1 _ "a" "b" 1 h1,
    C5_symmetry_invariant.2.2.2.2.2 _ h0⟩

end LNSim

namespace LNSim

/-! ### Dijkstra loop invariants (C3, C4, C7) -/

theorem lookp_mapval {β γ : Type} (f : β → γ) (l : List (String × β)) (p : String) :
    lookp (l.map fun q => (q.1, f q.2)) p = (lookp l p).map f := by
  induction l with
  | nil => simp [lookp]
  | cons hd tl ih =>
    obtain ⟨k, y⟩ := hd
    rcases eq_or_ne k p with rfl | hk
    · simp [lookp]
    · simp only [List.map_cons, lookp, if_neg hk]
      exact ih

theorem argmin_mem (d : String → Nat) :
    ∀ (xs : List String) (b : String), argmin d xs b = b ∨ argmin d xs b ∈ xs := by
  intro xs
  induction xs with
  | nil => intro b; exact Or.inl rfl
  | cons x xs ih =>
    intro b
    simp only [argmin]
    rcases ih (if d x < d b then x else b) with h | h
    · rw [h]
      split_ifs
      · exact Or.inr (List.mem_cons_self _ _)
      · exact Or.inl rfl
    · exact Or.inr (List.mem_cons_of_mem _ h)

theorem distOf_setk (dist : List (String × Nat)) (v : String) (n : Nat) (w : String) :
    distOf (setk dist v n) w = if w = v then n else distOf dist w := by
  simp only [distOf, lookp_setk]
  rcases eq_or_ne w v with rfl | hw
  · simp
  · simp [hw]

theorem getPrev_setk (prev : List (String × Option String)) (v : String)
    (o : Option String) (w : String) :
    getPrev (setk prev v o) w = if w = v then o else getPrev prev w := by
  simp only [getPrev, lookp_setk]
  rcases eq_or_ne w v with rfl | hw
  · simp
  · simp [hw]

/-- The facts maintained by the `while` loop of `Graph.dijkstra` which do not
depend on the tie-break: the predecessor map encodes, for every node it
assigns, an incoming channel edge whose tail is an already-marked node one
hop closer to the source. -/
structure DInv (g : Graph) (src : String) (dist : List (String × Nat))
    (prev : List (String × Option String)) (un : List String) : Prop where
  src0 : distOf dist src = 0
  srcnone : getPrev prev src = none
  edge : ∀ v u, getPrev prev v = some u → (bal g u v).isSome
  step : ∀ v u, getPrev prev v = some u → distOf dist v = distOf dist u + 1
  fin : ∀ v, v ≠ src → distOf dist v < INFINITY → getPrev prev v ≠ none
  bound : ∀ v, distOf dist v ≤ INFINITY
  marked : ∀ v u, getPrev prev v = some u → u ∉ un

theorem dinv_mono (g : Graph) (src : String) (dist : List (String × Nat))
    (prev : List (String × Option String)) (un un2 : List String)
    (hI : DInv g src dist prev un) (hsub : ∀ a, a ∈ un2 → a ∈ un) :
    DInv g src dist prev un2 where
  src0 := hI.src0
  srcnone := hI.srcnone
  edge := hI.edge
  step := hI.step
  fin := hI.fin
  bound := hI.bound
  marked := fun v u h hm => hI.marked v u h (hsub u hm)

theorem edgecost_of_isSome (g : Graph) (u v : String) (h : (bal g u v).isSome) :
    edgecost g u v = 1 := by
  unfold edgecost
  cases hb : bal g u v
  · rw [hb] at h; cases h
  · rfl

theorem dinv_update (g : Graph) (src u v : String) (dist : List (String × Nat))
    (prev : List (String × Option String)) (un : List String)
    (hI : DInv g src dist prev un) (hu : u ∉ un) (hv : v ∈ un)
    (hbal : (bal g u v).isSome)
    (hlt : distOf dist u + edgecost g u v < distOf dist v) :
    DInv g src (setk dist v (distOf dist u + edgecost g u v))
      (setk prev v (some u)) un := by
  have hec : edgecost g u v = 1 := edgecost_of_isSome g u v hbal
  have huv : u ≠ v := fun h => hu (h ▸ hv)
  have hvs : v ≠ src := by
    rintro rfl
    rw [hI.src0] at hlt
    omega
  refine ⟨?_, ?_, ?_, ?_, ?_, ?_, ?_⟩
  · rw [distOf_setk, if_neg (Ne.symm hvs)]
    exact hI.src0
  · rw [getPrev_setk, if_neg (Ne.symm hvs)]
    exact hI.srcnone
  · intro w w' h
    rw [getPrev_setk] at h
    rcases eq_or_ne w v with rfl | hw
    · rw [if_pos rfl] at h
      obtain rfl : u = w' := Option.some.inj h
      exact hbal
    · rw [if_neg hw] at h
      exact hI.edge w w' h
  · intro w w' h
    rw [getPrev_setk] at h
    rcases eq_or_ne w v with rfl | hw
    · rw [if_pos rfl] at h
      obtain rfl : u = w' := Option.some.inj h
      rw [distOf_setk, if_pos rfl, distOf_setk, if_neg huv, hec]
    · rw [if_neg hw] at h
      have hw' : w' ≠ v := fun hh => (hI.marked w w' h) (hh ▸ hv)
      rw [distOf_setk, if_neg hw, distOf_setk, if_neg hw']
      exact hI.step w w' h
  · intro w hws hwf
    rw [getPrev_setk]
    rcases eq_or_ne w v with rfl | hw
    · rw [if_pos rfl]
      simp
    · rw [if_neg hw]
      rw [distOf_setk, if_neg hw] at hwf
      exact hI.fin w hws hwf
  · intro w
    rw [distOf_setk]
    rcases eq_or_ne w v with rfl | hw
    · rw [if_pos rfl]
      exact le_trans (le_of_lt hlt) (hI.bound w)
    · rw [if_neg hw]
      exact hI.bound w
  · intro w w' h
    rw [getPrev_setk] at h
    rcases eq_or_ne w v with rfl | hw
    · rw [if_pos rfl] at h
      obtain rfl : u = w' := Option.some.inj h
      exact hu
    · rw [if_neg hw] at h
      exact hI.marked w w' h

theorem relax_inv (g : Graph) (u : String) (un : List String) (src : String)
    (hu : u ∉ un) :
    ∀ (cs : Chans) (dist : List (String × Nat)) (prev : List (String × Option String)),
    DInv g src dist prev un →
    (∀ p ∈ cs, (bal g u p.1).isSome) →
    DInv g src (relax g u un cs dist prev).1 (relax g u un cs dist prev).2 un := by
  intro cs
  induction cs with
  | nil => intro dist prev hI _; exact hI
  | cons hd rest ih =>
    intro dist prev hI hcs
    obtain ⟨v, w⟩ := hd
    have hbal : (bal g u v).isSome := hcs (v, w) (List.mem_cons_self _ _)
    have hrest : ∀ p ∈ rest, (bal g u p.1).isSome :=
      fun p hp => hcs p (List.mem_cons_of_mem _ hp)
    simp only [relax]
    by_cases hv : v ∈ un
    · rw [if_pos hv]
      by_cases hlt : distOf dist u + edgecost g u v < distOf dist v
      · rw [if_pos hlt]
        exact ih _ _ (dinv_update g src u v dist prev un hI hu hv hbal hlt) hrest
      · rw [if_neg hlt]
        exact ih _ _ hI hrest
    · rw [if_neg hv]
      exact ih _ _ hI hrest

end LNSim

namespace LNSim

theorem dloop_inv (g : Graph) (dst src : String) :
    ∀ (fuel : Nat) (dist : List (String × Nat)) (prev : List (String × Option String))
      (un : List String), un.Nodup → DInv g src dist prev un →
    ∃ un2, DInv g src (dloop g dst fuel dist prev un).1
      (dloop g dst fuel dist prev un).2 un2 := by
  intro fuel
  induction fuel with
  | zero => intro dist prev un _ hI; exact ⟨un, hI⟩
  | succ n ih =>
    intro dist prev un hnd hI
    cases un with
    | nil => exact ⟨[], hI⟩
    | cons x xs =>
      simp only [dloop]
      by_cases hdst : argmin (distOf dist) xs x = dst
      · rw [if_pos hdst]
        exact ⟨x :: xs, hI⟩
      · rw [if_neg hdst]
        have hmem : argmin (distOf dist) xs x ∈ x :: xs := by
          rcases argmin_mem (distOf dist) xs x with h | h
          · rw [h]; exact List.mem_cons_self _ _
          · exact List.mem_cons_of_mem _ h
        have hnotm : argmin (distOf dist) xs x ∉ (x :: xs).erase (argmin (distOf dist) xs x) := by
          intro hc
          exact absurd rfl ((List.Nodup.mem_erase_iff hnd).mp hc).1
        have hsub : ∀ a, a ∈ (x :: xs).erase (argmin (distOf dist) xs x) → a ∈ x :: xs :=
          fun a ha => List.mem_of_mem_erase ha
        have hcs : ∀ p ∈ (lookp g (argmin (distOf dist) xs x)).getD [],
            (bal g (argmin (distOf dist) xs x) p.1).isSome := by
          cases hl : lookp g (argmin (distOf dist) xs x) with
          | none => intro p hp; simp at hp
          | some cs0 =>
            intro p hp
            rw [bal, hl]
            show (lookp cs0 p.1).isSome
            rw [lookp_isSome_iff_mem]
            exact List.mem_map_of_mem Prod.fst hp
        exact ih _ _ _ (List.Nodup.erase _ hnd)
          (relax_inv g _ _ src hnotm _ dist prev (dinv_mono g src dist prev _ _ hI hsub) hcs)

theorem lookp_map_const {γ : Type} (c : γ) (g : Graph) (p : String) :
    lookp (g.map fun q => (q.1, c)) p = (lookp g p).map fun _ => c := by
  induction g with
  | nil => simp [lookp]
  | cons hd tl ih =>
    obtain ⟨k, y⟩ := hd
    rcases eq_or_ne k p with rfl | hk
    · simp [lookp]
    · simp only [List.map_cons, lookp, if_neg hk]
      exact ih

theorem getPrev_init (g : Graph) (v : String) :
    getPrev (g.map fun p => (p.1, (none : Option String))) v = none := by
  simp only [getPrev, lookp_map_const]
  cases lookp g v <;> simp

theorem dinv_init (g : Graph) (src : String) :
    DInv g src (setk (g.map fun p => (p.1, INFINITY)) src 0)
      (g.map fun p => (p.1, (none : Option String))) (keys g) := by
  have hd : ∀ v, v ≠ src →
      distOf (setk (g.map fun p => (p.1, INFINITY)) src 0) v = INFINITY := by
    intro v hv
    simp only [distOf, lookp_setk, if_neg hv, lookp_map_const]
    cases lookp g v <;> simp
  refine ⟨?_, ?_, ?_, ?_, ?_, ?_, ?_⟩
  · simp [distOf, lookp_setk]
  · exact getPrev_init g src
  · intro v u h; rw [getPrev_init] at h; cases h
  · intro v u h; rw [getPrev_init] at h; cases h
  · intro v hv hf
    rw [hd v hv] at hf
    omega
  · intro v
    rcases eq_or_ne v src with rfl | hv
    · simp [distOf, lookp_setk]
    · rw [hd v hv]
  · intro v u h; rw [getPrev_init] at h; cases h

theorem dijkstraState_inv (g : Graph) (src dst : String) (hnd : (keys g).Nodup) :
    ∃ un2, DInv g src (dijkstraState g src dst).1 (dijkstraState g src dst).2 un2 := by
  unfold dijkstraState
  exact dloop_inv g dst src (keys g).length _ _ (keys g) hnd (dinv_init g src)

theorem relax_dist_isSome (g : Graph) (u : String) (un : List String) :
    ∀ (cs : Chans) (dist : List (String × Nat)) (prev : List (String × Option String))
      (w : String), (lookp dist w).isSome →
    (lookp (relax g u un cs dist prev).1 w).isSome := by
  intro cs
  induction cs with
  | nil => intro dist prev w h; exact h
  | cons hd rest ih =>
    intro dist prev w h
    obtain ⟨v, wt⟩ := hd
    simp only [relax]
    by_cases hv : v ∈ un
    · rw [if_pos hv]
      by_cases hlt : distOf dist u + edgecost g u v < distOf dist v
      · rw [if_pos hlt]
        apply ih
        rw [lookp_setk]
        rcases eq_or_ne w v with rfl | hw
        · simp
        · rw [if_neg hw]; exact h
      · rw [if_neg hlt]
        exact ih _ _ _ h
    · rw [if_neg hv]
      exact ih _ _ _ h

theorem dloop_dist_isSome (g : Graph) (dst : String) :
    ∀ (fuel : Nat) (dist : List (String × Nat)) (prev : List (String × Option String))
      (un : List String) (w : String), (lookp dist w).isSome →
    (lookp (dloop g dst fuel dist prev un).1 w).isSome := by
  intro fuel
  induction fuel with
  | zero => intro dist prev un w h; exact h
  | succ n ih =>
    intro dist prev un w h
    cases un with
    | nil => exact h
    | cons x xs =>
      simp only [dloop]
      by_cases hdst : argmin (distOf dist) xs x = dst
      · rw [if_pos hdst]; exact h
      · rw [if_neg hdst]
        exact ih _ _ _ w (relax_dist_isSome g _ _ _ dist prev w h)

theorem dijkstraState_dist_isSome (g : Graph) (src dst w : String) (hw : w ∈ keys g) :
    (lookp (dijkstraState g src dst).1 w).isSome := by
  unfold dijkstraState
  apply dloop_dist_isSome
  rw [lookp_setk]
  rcases eq_or_ne w src with rfl | hww
  · simp
  · rw [if_neg hww, lookp_map_const]
    have hws := (lookp_isSome_iff_mem g w).mpr hw
    cases hl : lookp g w
    · rw [hl] at hws; cases hws
    · simp

/-- C4 counterexample: with a destination that is not a node of the graph,
`shortest_path` raises `KeyError` at the final `dist[dst]` read instead of
returning an infinite cost. -/
theorem C4_counterexample :
    dijkstra (mkGraph ["a"]) "a" "b" = .error .KeyError := rfl

/-- C4 amended: `shortest_path(src, dst)` never raises when `dst` is a node of
the graph (for any `src`, member or not), and likewise never raises when
`dst = src` even for a non-member `src` — the `dist[src] = 0` assignment
inserts the key, so the final `dist[dst]` read succeeds.  An unreachable
destination is encoded by a returned cost, not by failure. -/
theorem C4_amended_no_raise (g : Graph) (src dst : String)
    (hdst : dst ∈ keys g ∨ dst = src) :
    ∃ pc, dijkstra g src dst = .ok pc := by
  unfold dijkstra
  have hs : (lookp (dijkstraState g src dst).1 dst).isSome := by
    rcases hdst with h | h
    · exact dijkstraState_dist_isSome g src dst dst h
    · unfold dijkstraState
      apply dloop_dist_isSome
      rw [lookp_setk, if_pos h]
      rfl
  obtain ⟨c, hc⟩ := Option.isSome_iff_exists.mp hs
  rw [hc]
  exact ⟨_, rfl⟩

/-- C4 witness: a concrete no-raise run with an unreachable member `dst`. -/
theorem C4_witness : ∃ pc, dijkstra (mkGraph ["a", "b"]) "a" "b" = .ok pc :=
  C4_amended_no_raise (mkGraph ["a", "b"]) "a" "b" (Or.inl (by decide))

theorem buildPath_none (prev : List (String × Option String)) (p : String)
    (h : getPrev prev p = none) : ∀ fuel, buildPath prev fuel p = [p] := by
  intro fuel
  cases fuel with
  | zero => rfl
  | succ m => simp only [buildPath, h]

/-- C7 counterexample: with `dst` not a node of the graph, `dst` is never
assigned a predecessor and `dst ≠ src`, yet `shortest_path` raises `KeyError`
instead of returning the path `[dst]` with infinite cost. -/
theorem C7_counterexample :
    getPrev (dijkstraState [("a", ([] : Chans)), ("b", [])] "a" "c").2 "c" = none ∧
    ("c" : String) ≠ "a" ∧
    dijkstra [("a", ([] : Chans)), ("b", [])] "a" "c" = .error .KeyError :=
  ⟨rfl, by decide, rfl⟩

/-- C7 amended: for `dst` a node of the graph with `dst ≠ src`, if `dst` is
never assigned a predecessor during the search (its final predecessor entry is
`None`), `shortest_path` returns the path containing exactly `dst` and an
infinite cost. -/
theorem C7_amended_unreachable_path (g : Graph) (src dst : String)
    (hnd : (keys g).Nodup) (hdst : dst ∈ keys g) (hne : dst ≠ src)
    (hprev : getPrev (dijkstraState g src dst).2 dst = none) :
    dijkstra g src dst = .ok ([dst], INFINITY) := by
  obtain ⟨un2, hI⟩ := dijkstraState_inv g src dst hnd
  have hfin : distOf (dijkstraState g src dst).1 dst = INFINITY := by
    rcases lt_or_ge (distOf (dijkstraState g src dst).1 dst) INFINITY with h | h
    · exact absurd hprev (hI.fin dst hne h)
    · exact le_antisymm (hI.bound dst) h
  obtain ⟨c, hc⟩ := Option.isSome_iff_exists.mp (dijkstraState_dist_isSome g src dst dst hdst)
  have hcINF : c = INFINITY := by
    rw [distOf, hc] at hfin
    simpa using hfin
  subst hcINF
  unfold dijkstra
  rw [hc]
  show Except.ok (buildPath (dijkstraState g src dst).2
      ((dijkstraState g src dst).2.length + 1) dst, INFINITY) =
    Except.ok (([dst] : List String), INFINITY)
  rw [buildPath_none (dijkstraState g src dst).2 dst hprev]

/-- C7 witness: a concrete two-node graph with no channels; `b` is a node,
never assigned a predecessor, and the search returns `([b], INFINITY)`. -/
theorem C7_witness :
    dijkstra [("a", ([] : Chans)), ("b", [])] "a" "b" = .ok (["b"], INFINITY) :=
  C7_amended_unreachable_path [("a", ([] : Chans)), ("b", [])] "a" "b"
    (by decide) (by decide) (by decide) rfl

end LNSim

namespace LNSim

theorem chain_reaches (g : Graph) (src : String) (dist : List (String × Nat))
    (prev : List (String × Option String)) (un : List String)
    (hI : DInv g src dist prev un) :
    ∀ (n : Nat) (v : String), distOf dist v = n → n < INFINITY →
    ∃ pa : List String,
      (∀ fuel, n ≤ fuel → buildPath prev fuel v = pa) ∧
      pa.length = n + 1 ∧
      pa.head? = some src ∧
      pa.getLast? = some v ∧
      pa.Nodup ∧
      (∀ x ∈ pa, distOf dist x ≤ n) ∧
      (∀ x ∈ pa, x ≠ src → x ∈ prev.map Prod.fst) ∧
      List.Chain' (fun a b => (bal g a b).isSome) pa := by
  intro n
  induction n using Nat.strong_induction_on with
  | _ n ih =>
    intro v hdv hn
    cases hp : getPrev prev v with
    | none =>
      have hvs : v = src := by
        by_contra hne
        exact (hI.fin v hne (by rw [hdv]; exact hn)) hp
      subst hvs
      have hn0 : n = 0 := by rw [← hdv, hI.src0]
      subst hn0
      refine ⟨[v], fun fuel _ => buildPath_none prev v hp fuel, rfl, rfl, rfl, ?_, ?_, ?_, ?_⟩
      · exact List.nodup_singleton v
      · intro x hx
        rcases List.mem_singleton.mp hx with rfl
        rw [hdv]
      · intro x hx hxs
        rcases List.mem_singleton.mp hx with rfl
        exact absurd rfl hxs
      · exact List.chain'_singleton v
    | some u =>
      have hedge := hI.edge v u hp
      have hstep := hI.step v u hp
      have hn' : n = distOf dist u + 1 := by rw [← hdv, hstep]
      have hult : distOf dist u < n := by omega
      have hulf : distOf dist u < INFINITY := lt_trans hult hn
      obtain ⟨pa, hfuel, hlen, hhead, hlast, hnd, hle, hkeys, hchain⟩ :=
        ih (distOf dist u) hult u rfl hulf
      have hvne : v ∉ pa := by
        intro hc
        have hv2 := hle v hc
        rw [hdv] at hv2
        omega
      refine ⟨pa ++ [v], ?_, ?_, ?_, ?_, ?_, ?_, ?_, ?_⟩
      · intro fuel hf
        cases fuel with
        | zero => omega
        | succ m =>
          simp only [buildPath, hp]
          rw [hfuel m (by omega)]
      · simp only [List.length_append, List.length_singleton, hlen]
        omega
      · cases hpa : pa with
        | nil =>
          exfalso
          rw [hpa, List.length_nil] at hlen
          omega
        | cons a t =>
          rw [hpa] at hhead
          simp only [List.cons_append, List.head?_cons] at hhead ⊢
          exact hhead
      · rw [List.getLast?_concat]
      · rw [List.nodup_append]
        refine ⟨hnd, List.nodup_singleton v, ?_⟩
        intro a ha hb
        rcases List.mem_singleton.mp hb with rfl
        exact hvne ha
      · intro x hx
        rcases List.mem_append.mp hx with h | h
        · exact le_trans (hle x h) (by omega)
        · rcases List.mem_singleton.mp h with rfl
          rw [hdv]
      · intro x hx hxs
        rcases List.mem_append.mp hx with h | h
        · exact hkeys x h hxs
        · rcases List.mem_singleton.mp h with rfl
          have hsx : (lookp prev x).isSome := by
            unfold getPrev at hp
            cases hl : lookp prev x
            · rw [hl] at hp; simp at hp
            · simp
          rw [← lookp_isSome_iff_mem]
          exact hsx
      · rw [List.chain'_append]
        refine ⟨hchain, List.chain'_singleton v, ?_⟩
        intro a ha b hb
        rw [Option.mem_def, hlast, Option.some.injEq] at ha
        rw [Option.mem_def, List.head?_cons, Option.some.injEq] at hb
        subst ha
        subst hb
        exact hedge

theorem dijkstra_path_valid (g : Graph) (src dst : String)
    (hnd : (keys g).Nodup) (p : List String) (c : Nat)
    (hok : dijkstra g src dst = .ok (p, c)) (hc : c < INFINITY) :
    p.head? = some src ∧ p.getLast? = some dst ∧
    List.Chain' (fun a b => (bal g a b).isSome) p ∧
    c = p.length - 1 ∧ p.Nodup := by
  obtain ⟨un2, hI⟩ := dijkstraState_inv g src dst hnd
  unfold dijkstra at hok
  split at hok
  · cases hok
  next c' heq =>
    simp only [Except.ok.injEq, Prod.mk.injEq] at hok
    obtain ⟨hpeq, hceq⟩ := hok
    subst hceq
    have hdv : distOf (dijkstraState g src dst).1 dst = c' := by
      rw [distOf, heq]
      rfl
    obtain ⟨pa, hfuel, hlen, hhead, hlast, hnd2, hle, hkeys, hchain⟩ :=
      chain_reaches g src _ _ un2 hI c' dst hdv hc
    have hble : c' ≤ (dijkstraState g src dst).2.length := by
      cases hpa : pa with
      | nil =>
        rw [hpa, List.length_nil] at hlen
        omega
      | cons a t =>
        rw [hpa] at hhead hlen hnd2 hkeys
        simp only [List.head?_cons, Option.some.injEq] at hhead
        have htnd : t.Nodup := (List.nodup_cons.mp hnd2).2
        have hsrc_nt : src ∉ t := by
          rw [← hhead]
          exact (List.nodup_cons.mp hnd2).1
        have hsubk : t ⊆ (dijkstraState g src dst).2.map Prod.fst := by
          intro x hx
          exact hkeys x (List.mem_cons_of_mem _ hx) (fun hxx => hsrc_nt (hxx ▸ hx))
        have hlle := (List.Nodup.subperm htnd hsubk).length_le
        rw [List.length_map] at hlle
        simp only [List.length_cons] at hlen
        omega
    have hpa_eq : buildPath (dijkstraState g src dst).2
        ((dijkstraState g src dst).2.length + 1) dst = pa := hfuel _ (by omega)
    rw [hpa_eq] at hpeq
    subst hpeq
    refine ⟨hhead, hlast, hchain, ?_, hnd2⟩
    omega

/-- C3: whenever `shortest_path` returns a finite cost, the path starts at
`src`, ends at `dst`, every consecutive pair of nodes on it has a channel
entry `graph[u][v]`, the cost equals the number of edges `len(path) - 1`, and
the path visits no node twice. -/
theorem C3_dijkstra_path_valid (g : Graph) (src dst : String)
    (hnd : (keys g).Nodup) (p : List String) (c : Nat)
    (hok : dijkstra g src dst = .ok (p, c)) (hc : c < INFINITY) :
    p.head? = some src ∧ p.getLast? = some dst ∧
    List.Chain' (fun a b => (bal g a b).isSome) p ∧
    c = p.length - 1 ∧ p.Nodup :=
  dijkstra_path_valid g src dst hnd p c hok hc

/-- C3 witness: a concrete reachable pair with its valid one-hop path. -/
theorem C3_witness :
    (["a", "b"] : List String).head? = some "a" ∧
    (["a", "b"] : List String).getLast? = some "b" ∧
    List.Chain' (fun a b => (bal [("a", [("b", 1)]), ("b", [("a", 1)])] a b).isSome)
      ["a", "b"] ∧
    1 = (["a", "b"] : List String).length - 1 ∧
    (["a", "b"] : List String).Nodup :=
  C3_dijkstra_path_valid [("a", [("b", 1)]), ("b", [("a", 1)])] "a" "b"
    (by decide) ["a", "b"] 1 rfl (by decide)

end LNSim

namespace LNSim

/-! ### Self-send (C9) -/

theorem distOf_init_self (g : Graph) (src : String) :
    distOf (setk (g.map fun p => (p.1, INFINITY)) src 0) src = 0 := by
  simp [distOf, lookp_setk]

theorem distOf_init_ne (g : Graph) (src v : String) (h : v ≠ src) :
    distOf (setk (g.map fun p => (p.1, INFINITY)) src 0) v = INFINITY := by
  simp only [distOf, lookp_setk, if_neg h, lookp_map_const]
  cases lookp g v <;> simp

theorem argmin_eq_self (d : String → Nat) (n : String) (h0 : d n = 0)
    (hINF : ∀ m, m ≠ n → d m = INFINITY) :
    ∀ (xs : List String) (b : String), (b = n ∨ n ∈ xs) → argmin d xs b = n := by
  intro xs
  induction xs with
  | nil =>
    intro b hb
    rcases hb with rfl | h
    · rfl
    · exact absurd h (List.not_mem_nil n)
  | cons x xs ih =>
    intro b hb
    simp only [argmin]
    rcases hb with rfl | h
    · have hng : ¬ d x < d b := by rw [h0]; omega
      rw [if_neg hng]
      exact ih b (Or.inl rfl)
    · rcases List.mem_cons.mp h with hx | h2
      · rcases eq_or_ne b n with hbn | hbn
        · have hng : ¬ d x < d b := by rw [hbn, h0]; omega
          rw [if_neg hng]
          exact ih b (Or.inl hbn)
        · have hlt : d x < d b := by
            rw [← hx, h0, hINF b hbn]
            decide
          rw [if_pos hlt]
          exact ih x (Or.inl hx.symm)
      · exact ih _ (Or.inr h2)

theorem dijkstra_self (g : Graph) (n : String) (hn : n ∈ keys g) :
    dijkstra g n n = .ok ([n], 0) := by
  have hstate : dijkstraState g n n =
      (setk (g.map fun p => (p.1, INFINITY)) n 0,
        g.map fun p => (p.1, (none : Option String))) := by
    unfold dijkstraState
    cases hk : keys g with
    | nil => rw [hk] at hn; cases hn
    | cons x xs =>
      simp only [List.length_cons, dloop]
      have hu : argmin (distOf (setk (g.map fun p => (p.1, INFINITY)) n 0)) xs x = n := by
        apply argmin_eq_self
        · exact distOf_init_self g n
        · intro m hm
          exact distOf_init_ne g n m hm
        · rcases List.mem_cons.mp (hk ▸ hn) with h | h
          · exact Or.inl h.symm
          · exact Or.inr h
      rw [hu, if_pos rfl]
  have hl : lookp (dijkstraState g n n).1 n = some 0 := by
    rw [hstate]
    show lookp (setk (g.map fun p => (p.1, INFINITY)) n 0) n = some 0
    rw [lookp_setk, if_pos rfl]
  have hprev0 : getPrev (dijkstraState g n n).2 n = none := by
    rw [hstate]
    show getPrev (g.map fun p => (p.1, (none : Option String))) n = none
    exact getPrev_init g n
  unfold dijkstra
  rw [hl]
  show Except.ok (buildPath (dijkstraState g n n).2
      ((dijkstraState g n n).2.length + 1) n, 0) =
    Except.ok (([n] : List String), (0 : Nat))
  rw [buildPath_none (dijkstraState g n n).2 n hprev0]

/-- C9: for every node `n` of the graph and every amount — negative or larger
than every balance included — `send(n, n, amount)` returns a `TxData` with
status `SUCCESS`, path `[n]`, hops 0, and leaves every channel balance in the
graph unchanged (the graph value is returned as-is). -/
theorem C9_send_self (g : Graph) (n : String) (a : Int) (hn : n ∈ keys g) :
    send g n n a = (.ok ⟨[n], n, n, a, 0, .SUCCESS⟩, g) := by
  unfold send
  rw [dijkstra_self g n hn]
  rfl

/-- C9 witness: a concrete self-send with a negative amount. -/
theorem C9_witness :
    send (mkGraph ["a"]) "a" "a" (-7) =
      (.ok ⟨["a"], "a", "a", -7, 0, .SUCCESS⟩, mkGraph ["a"]) :=
  C9_send_self (mkGraph ["a"]) "a" (-7) (by decide)

end LNSim

namespace LNSim

/-! ### Balance bookkeeping of a successful multi-hop send (C10) -/

theorem transfer_effect (g : Graph) (u v : String) (a : Int) (g2 : Graph)
    (hne : u ≠ v) (ht : transfer g u v a = (none, g2)) :
    get_balance g2 u = (get_balance g u).map (fun b => b - a) ∧
    get_balance g2 v = (get_balance g v).map (fun b => b + a) ∧
    ∀ m, m ≠ u → m ≠ v → get_balance g2 m = get_balance g m := by
  unfold transfer at ht
  split_ifs at ht with h1 h2
  · exact absurd (congrArg Prod.fst ht) (by simp)
  · exact absurd (congrArg Prod.fst ht) (by simp)
  · split at ht
    next heq => exact absurd (congrArg Prod.fst ht) (by simp)
    next b heq =>
      split_ifs at ht with h3
      · exact absurd (congrArg Prod.fst ht) (by simp)
      · split at ht
        next heq2 => exact absurd (congrArg Prod.fst ht) (by simp)
        next c heq2 =>
          have hg2 : g2 = gUpdate (gUpdate g u fun cs => setk cs v (b - a)) v
              fun cs => setk cs u (c + a) := (congrArg Prod.snd ht).symm
          subst hg2
          push_neg at h1
          obtain ⟨cs, hcs⟩ := isSome_of_not_isNone (lookp g u) h1.1
          obtain ⟨cs2, hcs2⟩ := isSome_of_not_isNone (lookp g v) h1.2
          have hlv : lookp cs v = some b := by
            rw [bal, hcs] at heq
            exact heq
          have hg1v : lookp (gUpdate g u fun cs => setk cs v (b - a)) v = some cs2 := by
            rw [lookp_gUpdate, if_neg (Ne.symm hne)]
            exact hcs2
          have hlu : lookp cs2 u = some c := by
            rw [bal, hg1v] at heq2
            exact heq2
          refine ⟨?_, ?_, ?_⟩
          · have hlk : lookp (gUpdate (gUpdate g u fun cs => setk cs v (b - a)) v
                fun cs => setk cs u (c + a)) u = some (setk cs v (b - a)) := by
              rw [lookp_gUpdate, if_neg hne, lookp_gUpdate, if_pos rfl, hcs]
              rfl
            rw [get_balance, hlk, get_balance, hcs]
            simp only [Option.map_some']
            rw [sum_setk cs v b (b - a) hlv]
            congr 1
            ring
          · have hlk : lookp (gUpdate (gUpdate g u fun cs => setk cs v (b - a)) v
                fun cs => setk cs u (c + a)) v = some (setk cs2 u (c + a)) := by
              rw [lookp_gUpdate, if_pos rfl, hg1v]
              rfl
            rw [get_balance, hlk, get_balance, hcs2]
            simp only [Option.map_some']
            rw [sum_setk cs2 u c (c + a) hlu]
            congr 1
            ring
          · intro m hmu hmv
            have hlk : lookp (gUpdate (gUpdate g u fun cs => setk cs v (b - a)) v
                fun cs => setk cs u (c + a)) m = lookp g m := by
              rw [lookp_gUpdate, if_neg hmv, lookp_gUpdate, if_neg hmu]
            rw [get_balance, hlk, get_balance]

theorem getLast?_mem_own {α : Type} : ∀ (l : List α) (a : α), l.getLast? = some a → a ∈ l := by
  intro l
  induction l with
  | nil => intro a h; cases h
  | cons x t ih =>
    intro a h
    cases t with
    | nil =>
      simp only [List.getLast?_singleton] at h
      have hxa : x = a := Option.some.inj h
      rw [← hxa]
      exact List.mem_cons_self _ _
    | cons y t2 =>
      rw [List.getLast?_cons_cons] at h
      exact List.mem_cons_of_mem _ (ih a h)

theorem sendLoop_balance :
    ∀ (p : List String) (g g2 : Graph) (a : Int) (s d : String),
    p.head? = some s → p.getLast? = some d → s ≠ d → p.Nodup →
    sendLoop g a p = (none, g2) →
    get_balance g2 s = (get_balance g s).map (fun b => b - a) ∧
    get_balance g2 d = (get_balance g d).map (fun b => b + a) ∧
    ∀ m, m ≠ s → m ≠ d → get_balance g2 m = get_balance g m := by
  intro p
  induction p with
  | nil => intro g g2 a s d hh; cases hh
  | cons x rest ih =>
    intro g g2 a s d hh hl hne hnd hsl
    simp only [List.head?_cons, Option.some.injEq] at hh
    cases rest with
    | nil =>
      exfalso
      simp only [List.getLast?_singleton] at hl
      exact hne (hh.symm.trans (Option.some.inj hl))
    | cons y rest2 =>
      have hxy : x ≠ y := by
        intro hc
        exact (List.nodup_cons.mp hnd).1 (hc ▸ List.mem_cons_self y rest2)
      cases htr : transfer g x y a with
      | mk oe gmid =>
        simp only [sendLoop] at hsl
        rw [htr] at hsl
        cases oe with
        | some e => exact absurd (congrArg Prod.fst hsl) (by simp)
        | none =>
          have hsl2 : sendLoop gmid a (y :: rest2) = (none, g2) := hsl
          obtain ⟨E1, E2, E3⟩ := transfer_effect g x y a gmid hxy htr
          rw [List.getLast?_cons_cons] at hl
          have hdmem : d ∈ y :: rest2 := getLast?_mem_own _ d hl
          have hxd : x ≠ d := by
            intro hc
            exact (List.nodup_cons.mp hnd).1 (hc ▸ hdmem)
          cases rest2 with
          | nil =>
            simp only [List.getLast?_singleton] at hl
            have hyd : y = d := Option.some.inj hl
            have hg2 : gmid = g2 := congrArg Prod.snd hsl2
            subst hg2
            subst hyd
            rw [← hh]
            exact ⟨E1, E2, E3⟩
          | cons z rest3 =>
            have hyd : y ≠ d := by
              intro hc
              rw [List.getLast?_cons_cons] at hl
              have : d ∈ z :: rest3 := getLast?_mem_own _ d hl
              exact (List.nodup_cons.mp (List.nodup_cons.mp hnd).2).1 (hc ▸ this)
            obtain ⟨F1, F2, F3⟩ := ih gmid g2 a y d rfl hl hyd
              (List.nodup_cons.mp hnd).2 hsl2
            refine ⟨?_, ?_, ?_⟩
            · rw [← hh]
              rw [F3 x hxy hxd, E1]
            · rw [F2, E3 d (Ne.symm hxd) (Ne.symm hyd)]
            · intro m hms hmd
              rcases eq_or_ne m y with rfl | hmy
              · rw [F1, E2]
                cases get_balance g m <;> simp
              · rw [F3 m hmy hmd, E3 m (fun hc => hms (hc.trans hh)) hmy]

/-- C10: for every `send` that returns status `SUCCESS` with `src ≠ dst`, the
node-level outbound total `get_balance(src)` decreases by exactly the amount,
`get_balance(dst)` increases by exactly the amount, and `get_balance(n)` is
unchanged for every other node — the intermediate hops' debits and credits
cancel. -/
theorem C10_send_success_balance (g : Graph) (s d : String) (a : Int)
    (tx : TxData) (g2 : Graph) (hnd : (keys g).Nodup)
    (h : send g s d a = (.ok tx, g2)) (hst : tx.status = .SUCCESS) (hne : s ≠ d) :
    get_balance g2 s = (get_balance g s).map (fun b => b - a) ∧
    get_balance g2 d = (get_balance g d).map (fun b => b + a) ∧
    ∀ m, m ≠ s → m ≠ d → get_balance g2 m = get_balance g m := by
  unfold send at h
  split at h
  · exact absurd (congrArg Prod.fst h) (by simp)
  next p c heq =>
    split at h
    next hc =>
      have htx := congrArg Prod.fst h
      simp only [Except.ok.injEq] at htx
      rw [← htx] at hst
      exact TxStatus.noConfusion hst
    next hc =>
      split at h
      · exact absurd (congrArg Prod.fst h) (by simp)
      · have htx := congrArg Prod.fst h
        simp only [Except.ok.injEq] at htx
        rw [← htx] at hst
        exact TxStatus.noConfusion hst
      · split at h
        next e g1 hsl => exact absurd (congrArg Prod.fst h) (by simp)
        next g1 hsl =>
          have hg2 : g1 = g2 := congrArg Prod.snd h
          subst hg2
          obtain ⟨hh, hl, _, _, hndp⟩ :=
            dijkstra_path_valid g s d hnd p c heq (not_le.mp hc)
          exact sendLoop_balance p g g1 a s d hh hl hne hndp hsl

/-- C10 witness: a concrete two-hop success; the source drops by 2, the
destination gains 2, and the intermediate node's total is unchanged. -/
theorem C10_witness :
    get_balance [("a", [("b", 3)]), ("b", [("a", 2), ("c", 3)]), ("c", [("b", 2)])] "a" =
      (get_balance [("a", [("b", 5)]), ("b", [("a", 0), ("c", 5)]), ("c", [("b", 0)])] "a").map
        (fun b => b - 2) ∧
    get_balance [("a", [("b", 3)]), ("b", [("a", 2), ("c", 3)]), ("c", [("b", 2)])] "c" =
      (get_balance [("a", [("b", 5)]), ("b", [("a", 0), ("c", 5)]), ("c", [("b", 0)])] "c").map
        (fun b => b + 2) ∧
    get_balance [("a", [("b", 3)]), ("b", [("a", 2), ("c", 3)]), ("c", [("b", 2)])] "b" =
      get_balance [("a", [("b", 5)]), ("b", [("a", 0), ("c", 5)]), ("c", [("b", 0)])] "b" := by
  have h := C10_send_success_balance
    [("a", [("b", 5)]), ("b", [("a", 0), ("c", 5)]), ("c", [("b", 0)])] "a" "c" 2
    ⟨["a", "b", "c"], "a", "c", 2, 2, .SUCCESS⟩
    [("a", [("b", 3)]), ("b", [("a", 2), ("c", 3)]), ("c", [("b", 2)])]
    (by decide) rfl rfl (by decide)
  exact ⟨h.1, h.2.1, h.2.2 "b" (by decide) (by decide)⟩

end LNSim
